import Mathlib

/-!
Shallow embedding of the completion pipeline of `src/extension.ts`
(react-luau-props-helper).  Document text is modelled as `List Char`,
the cursor as a `Nat` offset, and the user configuration map as an
optional association list.  The regular expression

  (React\.createElement|e)\s*\(\s*(?:(["'])([A-Za-z0-9_]+)\2|([A-Za-z0-9_]+))\s*,\s*\x7b

is embedded as a deterministic scanner `matchAt`; the pattern admits no
cross-branch backtracking (the quoted and bare first-argument branches are
distinguished by their first character, and the class-name character class
is disjoint from whitespace, comma and quote characters), so the scanner
computes exactly the JavaScript regex's match at each start position, and
the `exec` loop is the usual leftmost, non-overlapping scan (`execAll`).
The source's two `while ((match = pattern.exec(text)) !== null)` loops
iterate that scan stream updating an accumulator; they are embedded as
left folds over `execAll`.  Character scans are bounded, so they are
written with an explicit structural fuel argument (always instantiated
with enough fuel for the whole text); each wrapper gets a proved
one-step unfolding lemma.
-/

namespace ReactLuau

/-- Opening curly brace character. -/
def lbrace : Char := Char.ofNat 123

/-- Closing curly brace character. -/
def rbrace : Char := Char.ofNat 125

/-- Double quote character. -/
def dquote : Char := Char.ofNat 34

/-- Single quote character. -/
def squote : Char := Char.ofNat 39

/-- The character class `[A-Za-z0-9_]` of the regex. -/
def isWordChar (c : Char) : Bool := c.isAlpha || c.isDigit || c = '_'

/-- JavaScript's regex class `\s` (by code point). -/
def isSpace (c : Char) : Bool :=
  c.toNat = 32 || c.toNat = 9 || c.toNat = 10 || c.toNat = 13 ||
  c.toNat = 11 || c.toNat = 12 || c.toNat = 160 || c.toNat = 0x1680 ||
  (0x2000 ≤ c.toNat && c.toNat ≤ 0x200a) || c.toNat = 0x2028 || c.toNat = 0x2029 ||
  c.toNat = 0x202f || c.toNat = 0x205f || c.toNat = 0x3000 || c.toNat = 0xfeff

/-- Fueled scan for `skipWs`. -/
def skipWsGo (cs : List Char) : Nat → Nat → Nat
  | 0, i => i
  | fuel + 1, i =>
    match cs.get? i with
    | some c => if isSpace c then skipWsGo cs fuel (i + 1) else i
    | none => i

/-- First index at or after `i` whose character is not `\s` (clamped to the
text length); embeds the regex's greedy `\s*`. -/
def skipWs (cs : List Char) (i : Nat) : Nat := skipWsGo cs (cs.length - i) i

/-- Fueled scan for `wordEnd`. -/
def wordEndGo (cs : List Char) : Nat → Nat → Nat
  | 0, i => i
  | fuel + 1, i =>
    match cs.get? i with
    | some c => if isWordChar c then wordEndGo cs fuel (i + 1) else i
    | none => i

/-- End of the maximal run of `[A-Za-z0-9_]` characters starting at `i`;
embeds the regex's greedy `[A-Za-z0-9_]+` (the run is nonempty iff
`i < wordEnd cs i`). -/
def wordEnd (cs : List Char) (i : Nat) : Nat := wordEndGo cs (cs.length - i) i

/-- Character list of the long callee spelling. -/
def calleeChars : List Char := "React.createElement".data

/-- The literal alternation `(React\.createElement|e)` at position `i`:
the longer spelling is tried first, exactly as the regex alternation does;
returns the index just past the callee token. -/
def matchCallee (cs : List Char) (i : Nat) : Option Nat :=
  if calleeChars.isPrefixOf (cs.drop i) then some (i + calleeChars.length)
  else if cs.get? i = some 'e' then some (i + 1)
  else none

/-- The tail `\s*,\s*\x7b` of the call pattern from position `i`; returns
the index just past the opening brace together with the already captured
class name. -/
def matchTail (cs : List Char) (name : String) (i : Nat) : Option (Nat × String) :=
  let i1 := skipWs cs i
  if cs.get? i1 = some ',' then
    let i2 := skipWs cs (i1 + 1)
    if cs.get? i2 = some lbrace then some (i2 + 1, name) else none
  else none

/-- The whole call pattern anchored at position `i`: callee, `\s*`, `(`,
`\s*`, then either a quoted class name (quote, nonempty word run, same
quote — the backreference `\2`) or a bare identifier, then `\s*,\s*\x7b`.
Returns the index one past the matched opening brace and the captured
class name. -/
def matchAt (cs : List Char) (i : Nat) : Option (Nat × String) :=
  match matchCallee cs i with
  | none => none
  | some i1 =>
    let i2 := skipWs cs i1
    if cs.get? i2 = some '(' then
      let i3 := skipWs cs (i2 + 1)
      match cs.get? i3 with
      | none => none
      | some q =>
        if q = dquote || q = squote then
          let i5 := wordEnd cs (i3 + 1)
          if i3 + 1 < i5 ∧ cs.get? i5 = some q then
            matchTail cs (String.mk ((cs.drop (i3 + 1)).take (i5 - (i3 + 1)))) (i5 + 1)
          else none
        else
          let i5 := wordEnd cs i3
          if i3 < i5 then
            matchTail cs (String.mk ((cs.drop i3).take (i5 - i3))) i5
          else none
    else none

/-- Fueled scan for `nextMatch`. -/
def nextMatchGo (cs : List Char) : Nat → Nat → Option (Nat × Nat × String)
  | 0, _ => none
  | fuel + 1, i =>
    match matchAt cs i with
    | some (e, n) => some (i, e, n)
    | none => nextMatchGo cs fuel (i + 1)

/-- The leftmost match of the call pattern starting at or after `i`, as
`(start, stop, className)`; embeds one step of `pattern.exec` with
`lastIndex = i`. -/
def nextMatch (cs : List Char) (i : Nat) : Option (Nat × Nat × String) :=
  nextMatchGo cs (cs.length - i) i

/-- Fueled scan for `execAll`. -/
def execAllGo (cs : List Char) : Nat → Nat → List (Nat × Nat × String)
  | 0, _ => []
  | fuel + 1, i =>
    match nextMatch cs i with
    | none => []
    | some (s, e, n) => (s, e, n) :: execAllGo cs fuel e

/-- All matches of the call pattern from position `i` on, in the order
`pattern.exec` yields them in the source's `while` loops: leftmost first,
non-overlapping, each search resuming at the previous match's end. -/
def execAll (cs : List Char) (i : Nat) : List (Nat × Nat × String) :=
  execAllGo cs (cs.length - i) i

/-- Embeds `getEnclosingClassName` (extension.ts lines 123-140): iterate
`pattern.exec` over the whole window, keeping the captured class name of
each match (`if (className) lastClassName = className`; a captured name is
truthy exactly when nonempty), and return the last one kept. -/
def getEnclosingClassName (cs : List Char) : Option String :=
  (execAll cs 0).foldl (fun acc m => if m.2.2 = "" then acc else some m.2.2) none

/-- JavaScript's `String.prototype.lastIndexOf` restricted to a single
character: index of the last occurrence, `-1` if absent. -/
def lastIndexOf (l : List Char) (c : Char) : Int :=
  match l with
  | [] => -1
  | a :: t =>
    let r := lastIndexOf t c
    if 0 ≤ r then r + 1 else if a = c then 0 else -1

/-- `match.index + match[0].lastIndexOf("\x7b")` for a match `m` of the
call pattern (the matched text is `cs[m.1 .. m.2.1)`). -/
def bracePos (cs : List Char) (m : Nat × Nat × String) : Int :=
  (m.1 : Int) + lastIndexOf ((cs.drop m.1).take (m.2.1 - m.1)) lbrace

/-- Embeds the first half of `isInsidePropsObject` (extension.ts lines
151-171): re-run the same pattern over the window and keep
`propsStartIndex` (initially `-1`) of the last match whose captured class
name equals `className`. -/
def propsStart (cs : List Char) (className : String) : Int :=
  (execAll cs 0).foldl
    (fun acc m => if m.2.2 = className then bracePos cs m else acc) (-1)

/-- Fueled scan for `braceWalk`. -/
def braceWalkGo (cs : List Char) (start : Nat) : Nat → Nat → Int → Bool
  | 0, _, _ => false
  | fuel + 1, i, depth =>
    match cs.get? i with
    | none => false
    | some ch =>
      if ch = lbrace then braceWalkGo cs start fuel (i + 1) (depth + 1)
      else if ch = rbrace then
        if depth - 1 = 0 ∧ start < i then true
        else braceWalkGo cs start fuel (i + 1) (depth - 1)
      else braceWalkGo cs start fuel (i + 1) depth

/-- Embeds the depth-tracking `for` loop of `isInsidePropsObject`
(extension.ts lines 173-188): walk from `i` to the end of the window,
incrementing `depth` on `\x7b`, decrementing on `\x7d`, and return `ended`,
which becomes true when the depth returns to zero strictly after `start`. -/
def braceWalk (cs : List Char) (start i : Nat) (depth : Int) : Bool :=
  braceWalkGo cs start (cs.length - i) i depth

/-- Embeds `isInsidePropsObject` (extension.ts lines 151-192): `false`
when no match for the class was found (`propsStartIndex === -1`), else
the negation of `ended` for the walk starting at the stored brace. -/
def isInsidePropsObject (cs : List Char) (className : String) : Bool :=
  let p := propsStart cs className
  if p = -1 then false
  else !braceWalk cs p.toNat p.toNat 0

/-- The built-in defaults (extension.ts lines 5-59). -/
def defaultPropsMap : List (String × List String) :=
  [("TextLabel",
    ["Text", "TextColor3", "TextTransparency", "TextStrokeColor3",
     "TextStrokeTransparency", "Font", "TextSize", "RichText", "TextWrapped",
     "TextXAlignment", "TextYAlignment", "BackgroundColor3",
     "BackgroundTransparency", "BorderSizePixel", "BorderColor3", "Size",
     "Position", "AnchorPoint", "Visible", "ZIndex", "LayoutOrder"]),
   ("Frame",
    ["BackgroundColor3", "BackgroundTransparency", "BorderSizePixel",
     "BorderColor3", "Size", "Position", "AnchorPoint", "Visible", "ZIndex",
     "LayoutOrder", "AutomaticSize"]),
   ("ImageLabel",
    ["Image", "ImageColor3", "ImageTransparency", "ScaleType", "SliceCenter",
     "BackgroundColor3", "BackgroundTransparency", "BorderSizePixel",
     "BorderColor3", "Size", "Position", "AnchorPoint", "Visible", "ZIndex",
     "LayoutOrder"])]

/-- The typed (own-key) view of `getPropsForClass` (extension.ts lines
199-207), reading the maps at their declared type
`Record<string, string[]>`.  The user configuration
(`config.get("props", defaultPropsMap) || defaultPropsMap`) is modelled
as an optional map defaulting to `defaultPropsMap`.  In JavaScript,
`userMap[className] || defaultPropsMap[className]`: an array value is
always truthy (even when empty), so the built-in default is consulted
only when the user map read yields nothing for the key.  A JavaScript
property read also falls through to `Object.prototype` for keys such as
`constructor`; that untyped behaviour is modelled by
`getPropsForClassJs` below, which refines this view
(`getPropsForClassJs_agrees`). -/
def getPropsForClass (userConfig : Option (List (String × List String)))
    (className : String) : Option (List String) :=
  let userMap := userConfig.getD defaultPropsMap
  match List.lookup className userMap with
  | some props => some props
  | none => List.lookup className defaultPropsMap

/-- The single completion-item kind the source uses. -/
inductive CompletionItemKind where
  | property
  deriving DecidableEq, Repr

/-- The fields of `vscode.CompletionItem` the source sets: the label, the
snippet insertion text (with `$0` as the edit-cursor placement marker) and
the detail line. -/
structure CompletionItem where
  label : String
  insertText : String
  detail : String
  kind : CompletionItemKind
  deriving DecidableEq, Repr

/-- Embeds `buildItemsForProps` (extension.ts lines 212-225). -/
def buildItemsForProps (className : String) (props : List String) :
    List CompletionItem :=
  props.map (fun name =>
    { label := name
      insertText := name ++ " = $0"
      detail := className ++ " property (React Luau helper)"
      kind := CompletionItemKind.property })

/-- Embeds the decision chain of `provideCompletionItems` (extension.ts
lines 98-113) on an already-extracted window. -/
def provideCore (w : List Char) (userConfig : Option (List (String × List String))) :
    Option (List CompletionItem) :=
  match getEnclosingClassName w with
  | none => none
  | some className =>
    match getPropsForClass userConfig className with
    | none => none
    | some props =>
      if props.length = 0 then none
      else if isInsidePropsObject w className then
        some (buildItemsForProps className props)
      else none

/-- `const maxLookback = 2000` (extension.ts line 91). -/
def maxLookback : Nat := 2000

/-- Embeds the window extraction of `provideCompletionItems` (extension.ts
lines 87-96): text from the document start to the cursor, truncated to the
trailing `maxLookback` characters when longer.  An out-of-range cursor
offset is clamped to the end of the document by `List.take`. -/
def windowText (doc : String) (pos : Nat) : List Char :=
  let textBeforeCursor := doc.data.take pos
  if maxLookback < textBeforeCursor.length then
    textBeforeCursor.drop (textBeforeCursor.length - maxLookback)
  else textBeforeCursor

/-- The whole query pipeline `provideCompletionItems` (extension.ts lines
82-114). -/
def provideCompletionItems (doc : String) (pos : Nat)
    (userConfig : Option (List (String × List String))) :
    Option (List CompletionItem) :=
  provideCore (windowText doc pos) userConfig

/-- The values a JavaScript property read on the props maps can yield:
an own-key `string[]` array, an inherited `Object.prototype` function
(carrying its `Function.length` arity), or an inherited plain object
(the `__proto__` accessor's result, whose `length` is `undefined`). -/
inductive JsValue where
  | arr (elems : List String)
  | fn (arity : Nat)
  | obj
  deriving DecidableEq, Repr

/-- The `Object.prototype` members reachable through a key matching
`[A-Za-z0-9_]+`, with the `Function.length` of each function member. -/
def objectPrototypeGet (key : String) : Option JsValue :=
  if key = "constructor" then some (JsValue.fn 1)
  else if key = "hasOwnProperty" then some (JsValue.fn 1)
  else if key = "isPrototypeOf" then some (JsValue.fn 1)
  else if key = "propertyIsEnumerable" then some (JsValue.fn 1)
  else if key = "toLocaleString" then some (JsValue.fn 0)
  else if key = "toString" then some (JsValue.fn 0)
  else if key = "valueOf" then some (JsValue.fn 0)
  else if key = "__defineGetter__" then some (JsValue.fn 2)
  else if key = "__defineSetter__" then some (JsValue.fn 2)
  else if key = "__lookupGetter__" then some (JsValue.fn 1)
  else if key = "__lookupSetter__" then some (JsValue.fn 1)
  else if key = "__proto__" then some JsValue.obj
  else none

/-- A JavaScript property read `m[key]` on a plain object holding a
`Record<string, string[]>`: the own key if present, else the inherited
`Object.prototype` member, else `undefined`. -/
def jsIndex (m : List (String × List String)) (key : String) : Option JsValue :=
  match List.lookup key m with
  | some props => some (JsValue.arr props)
  | none => objectPrototypeGet key

/-- The untyped JavaScript semantics of `getPropsForClass` (extension.ts
lines 199-207): `userMap[className] || defaultPropsMap[className]` with
full property-read semantics.  Any value a read yields (array, inherited
function or object) is truthy, so the default map is consulted only when
the user-map read — own keys and prototype both — yields `undefined`. -/
def getPropsForClassJs (userConfig : Option (List (String × List String)))
    (className : String) : Option JsValue :=
  let userMap := userConfig.getD defaultPropsMap
  match jsIndex userMap className with
  | some v => some v
  | none => jsIndex defaultPropsMap className

/-- The guard `props.length === 0` on a JavaScript value: array length,
function arity, or `undefined === 0` (false) for a plain object. -/
def jsLengthIsZero : JsValue → Bool
  | JsValue.arr elems => elems.length == 0
  | JsValue.fn arity => arity == 0
  | JsValue.obj => false

/-- The exception `provideCompletionItems` can raise: `props.map` applied
to a value that is not an array. -/
inductive JsError where
  | typeError
  deriving DecidableEq, Repr

/-- The decision chain of `provideCompletionItems` (extension.ts lines
98-113) under the untyped JavaScript read semantics: identical to
`provideCore` except that the props lookup may yield an inherited
non-array value, which passes the truthiness guard, passes the length
guard unless its `length` is `0`, and then makes `props.map` in
`buildItemsForProps` throw a TypeError. -/
def provideCoreJs (w : List Char)
    (userConfig : Option (List (String × List String))) :
    Except JsError (Option (List CompletionItem)) :=
  match getEnclosingClassName w with
  | none => Except.ok none
  | some className =>
    match getPropsForClassJs userConfig className with
    | none => Except.ok none
    | some props =>
      if jsLengthIsZero props then Except.ok none
      else if isInsidePropsObject w className then
        match props with
        | JsValue.arr elems => Except.ok (some (buildItemsForProps className elems))
        | _ => Except.error JsError.typeError
      else Except.ok none

/-- The whole query pipeline under the untyped JavaScript read
semantics. -/
def provideCompletionItemsJs (doc : String) (pos : Nat)
    (userConfig : Option (List (String × List String))) :
    Except JsError (Option (List CompletionItem)) :=
  provideCoreJs (windowText doc pos) userConfig

/-- Specification-side counterpart of one step of the depth walk: `+1` for
an opening brace, `-1` for a closing brace, `0` otherwise. -/
def braceDelta (c : Char) : Int :=
  if c = lbrace then 1 else if c = rbrace then -1 else 0

/-- Specification-side depth of the slice `cs[p .. j)`: number of opening
braces minus number of closing braces in it. -/
def braceDepth (cs : List Char) (p j : Nat) : Int :=
  (((cs.drop p).take (j - p)).map braceDelta).sum

/-- A list of queries run in sequence against the provider (used to state
that no hidden state accumulates across invocations). -/
def queryResults
    (qs : List (String × Nat × Option (List (String × List String)))) :
    List (Option (List CompletionItem)) :=
  qs.map (fun q => provideCompletionItems q.1 q.2.1 q.2.2)

/-- Class name used in concrete test inputs. -/
def clsFrame : String := "Frame"

/-- Class name used in concrete test inputs. -/
def clsA : String := "A"

/-- Class name used in concrete test inputs. -/
def clsB : String := "B"

/-- A window with two sequential calls to different classes, the cursor
after the second call's opening brace. -/
def winTwoCalls : String := "e(\"A\", \x7b\x7d) e(\"B\", \x7b"

/-- A window with no occurrence of the call pattern. -/
def winNoMatch : String := "x = 1"

/-- A window with one call whose props object is still open at the end. -/
def winFrameOpen : String := "e(\"Frame\", \x7b"

/-- A window with one call whose props object is already closed. -/
def winFrameClosed : String := "e(\"Frame\", \x7b\x7d) x"

/-- A window whose call token is an identifier merely ending in `e`. -/
def winSpawnTree : String := "spawnTree(\"Frame\", \x7b"

/-- Another window with no occurrence of the call pattern. -/
def winHello : String := "hello"

/-- The empty document. -/
def emptyDoc : String := ""

/-- A user configuration carrying an empty list for class `Frame`. -/
def userMapEmptyFrame : List (String × List String) := [(clsFrame, [])]

/-- The class name that hits `Object.prototype.constructor`. -/
def clsConstructor : String := "constructor"

/-- A window whose call pattern names the class `constructor`, with the
cursor after the opening brace. -/
def winConstructor : String := "e(\"constructor\", \x7b"

/-- A document whose only call pattern lies entirely before the truncation
point of the lookback window. -/
def docTruncated : String :=
  String.mk (winFrameOpen.data ++ List.replicate maxLookback ' ')

theorem skipWsGo_ge (cs : List Char) : ∀ fuel i, i ≤ skipWsGo cs fuel i := by
  intro fuel
  induction fuel with
  | zero => intro i; rfl
  | succ fuel ih =>
    intro i
    show (match cs.get? i with
      | some c => if isSpace c then skipWsGo cs fuel (i + 1) else i
      | none => i) ≥ i
    match cs.get? i with
    | some c =>
      by_cases hsp : isSpace c
      · simp only [hsp, if_true]
        exact le_trans (Nat.le_succ i) (ih (i + 1))
      · simp [hsp]
    | none => exact le_refl i

theorem skipWs_ge (cs : List Char) (i : Nat) : i ≤ skipWs cs i :=
  skipWsGo_ge cs _ i

theorem wordEndGo_ge (cs : List Char) : ∀ fuel i, i ≤ wordEndGo cs fuel i := by
  intro fuel
  induction fuel with
  | zero => intro i; rfl
  | succ fuel ih =>
    intro i
    show (match cs.get? i with
      | some c => if isWordChar c then wordEndGo cs fuel (i + 1) else i
      | none => i) ≥ i
    match cs.get? i with
    | some c =>
      by_cases hw : isWordChar c
      · simp only [hw, if_true]
        exact le_trans (Nat.le_succ i) (ih (i + 1))
      · simp [hw]
    | none => exact le_refl i

theorem wordEnd_ge (cs : List Char) (i : Nat) : i ≤ wordEnd cs i :=
  wordEndGo_ge cs _ i

theorem lt_length_of_lt_wordEnd (cs : List Char) (i : Nat) (h : i < wordEnd cs i) :
    i < cs.length := by
  by_contra hn
  have hg : cs.get? i = none := List.get?_eq_none.mpr (by omega)
  have h0 : cs.length - i = 0 := by omega
  rw [wordEnd, h0] at h
  exact absurd h (by simp [wordEndGo])

theorem matchCallee_gt (cs : List Char) (i i1 : Nat) (h : matchCallee cs i = some i1) :
    i < i1 := by
  unfold matchCallee at h
  split at h
  · simp only [Option.some.injEq] at h
    have hl : 0 < calleeChars.length := by decide
    omega
  · split at h
    · simp only [Option.some.injEq] at h
      omega
    · exact absurd h (by simp)

theorem matchCallee_first (cs : List Char) (i i1 : Nat) (h : matchCallee cs i = some i1) :
    cs.get? i = some 'R' ∨ cs.get? i = some 'e' := by
  unfold matchCallee at h
  split at h
  case isTrue hp =>
    left
    obtain ⟨t, ht⟩ := List.isPrefixOf_iff_prefix.mp hp
    have h0 : (cs.drop i).get? 0 = some 'R' := by
      rw [← ht, List.get?_append (by decide)]
      decide
    rw [List.get?_drop] at h0
    simpa using h0
  case isFalse =>
    split at h
    · right; assumption
    · exact absurd h (by simp)

theorem matchTail_bounds (cs : List Char) (nm : String) (i : Nat) (e : Nat) (n : String)
    (h : matchTail cs nm i = some (e, n)) :
    i < e ∧ e ≤ cs.length ∧ cs.get? (e - 1) = some lbrace ∧ n = nm := by
  simp only [matchTail] at h
  split at h
  case isTrue hc =>
    split at h
    case isTrue hb =>
      simp only [Option.some.injEq, Prod.mk.injEq] at h
      obtain ⟨he, hn⟩ := h
      obtain ⟨hlt, -⟩ := List.get?_eq_some.mp hb
      have h1 : i ≤ skipWs cs i := skipWs_ge cs i
      have h2 : skipWs cs i + 1 ≤ skipWs cs (skipWs cs i + 1) := skipWs_ge cs _
      subst he hn
      refine ⟨by omega, by omega, ?_, rfl⟩
      simpa using hb
    case isFalse => exact absurd h (by simp)
  case isFalse => exact absurd h (by simp)

theorem matchAt_bounds (cs : List Char) (i : Nat) (e : Nat) (n : String)
    (h : matchAt cs i = some (e, n)) :
    i < e ∧ e ≤ cs.length ∧ cs.get? (e - 1) = some lbrace ∧ n ≠ "" := by
  simp only [matchAt] at h
  split at h
  case h_1 => exact absurd h (by simp)
  case h_2 i1 hc =>
    have hi1 : i < i1 := matchCallee_gt cs i i1 hc
    have ha : i1 ≤ skipWs cs i1 := skipWs_ge cs i1
    split at h
    case isFalse => exact absurd h (by simp)
    case isTrue hpar =>
      have hb : skipWs cs i1 + 1 ≤ skipWs cs (skipWs cs i1 + 1) := skipWs_ge cs _
      split at h
      case h_1 => exact absurd h (by simp)
      case h_2 q hq =>
        split at h
        case isTrue hqq =>
          split at h
          case isTrue hrun =>
            obtain ⟨h1, h2, h3, h4⟩ := matchTail_bounds cs _ _ e n h
            obtain ⟨hrun1, -⟩ := hrun
            have hwe : skipWs cs (skipWs cs i1 + 1) + 1 ≤
                wordEnd cs (skipWs cs (skipWs cs i1 + 1) + 1) := wordEnd_ge cs _
            refine ⟨by omega, h2, h3, ?_⟩
            subst h4
            intro hemp
            have hdata : ((cs.drop (skipWs cs (skipWs cs i1 + 1) + 1)).take
                (wordEnd cs (skipWs cs (skipWs cs i1 + 1) + 1) -
                  (skipWs cs (skipWs cs i1 + 1) + 1))) = ([] : List Char) := by
              have hc2 := congrArg String.data hemp
              simpa using hc2
            have hlen : skipWs cs (skipWs cs i1 + 1) + 1 < cs.length :=
              lt_length_of_lt_wordEnd cs _ hrun1
            have hlen2 := congrArg List.length hdata
            rw [List.length_take, List.length_drop] at hlen2
            simp only [List.length_nil] at hlen2
            omega
          case isFalse => exact absurd h (by simp)
        case isFalse hqq =>
          split at h
          case isTrue hrun =>
            obtain ⟨h1, h2, h3, h4⟩ := matchTail_bounds cs _ _ e n h
            have hwe : skipWs cs (skipWs cs i1 + 1) ≤
                wordEnd cs (skipWs cs (skipWs cs i1 + 1)) := wordEnd_ge cs _
            refine ⟨by omega, h2, h3, ?_⟩
            subst h4
            intro hemp
            have hdata : ((cs.drop (skipWs cs (skipWs cs i1 + 1))).take
                (wordEnd cs (skipWs cs (skipWs cs i1 + 1)) -
                  skipWs cs (skipWs cs i1 + 1))) = ([] : List Char) := by
              have hc2 := congrArg String.data hemp
              simpa using hc2
            have hlen : skipWs cs (skipWs cs i1 + 1) < cs.length :=
              lt_length_of_lt_wordEnd cs _ hrun
            have hlen2 := congrArg List.length hdata
            rw [List.length_take, List.length_drop] at hlen2
            simp only [List.length_nil] at hlen2
            omega
          case isFalse => exact absurd h (by simp)

theorem matchAt_first (cs : List Char) (i : Nat) (e : Nat) (n : String)
    (h : matchAt cs i = some (e, n)) :
    cs.get? i = some 'R' ∨ cs.get? i = some 'e' := by
  simp only [matchAt] at h
  split at h
  case h_1 => exact absurd h (by simp)
  case h_2 i1 hc => exact matchCallee_first cs i i1 hc

theorem nextMatchGo_some (cs : List Char) :
    ∀ fuel i s e n, nextMatchGo cs fuel i = some (s, e, n) →
      i ≤ s ∧ matchAt cs s = some (e, n) := by
  intro fuel
  induction fuel with
  | zero => intro i s e n h; exact absurd h (by simp [nextMatchGo])
  | succ fuel ih =>
    intro i s e n h
    rw [nextMatchGo] at h
    split at h
    case h_1 e1 n1 hm =>
      simp only [Option.some.injEq, Prod.mk.injEq] at h
      obtain ⟨hs, he, hn⟩ := h
      subst hs he hn
      exact ⟨le_refl i, hm⟩
    case h_2 hm =>
      obtain ⟨hs, hmm⟩ := ih (i + 1) s e n h
      exact ⟨by omega, hmm⟩

theorem nextMatch_bounds (cs : List Char) (i : Nat) (s e : Nat) (n : String)
    (h : nextMatch cs i = some (s, e, n)) :
    i ≤ s ∧ s < e ∧ e ≤ cs.length ∧ matchAt cs s = some (e, n) ∧ n ≠ "" := by
  obtain ⟨hs, hm⟩ := nextMatchGo_some cs _ i s e n h
  obtain ⟨h1, h2, -, h4⟩ := matchAt_bounds cs s e n hm
  exact ⟨hs, h1, h2, hm, h4⟩

theorem nextMatch_of_le (cs : List Char) (i : Nat) (h : cs.length ≤ i) :
    nextMatch cs i = none := by
  have h0 : cs.length - i = 0 := by omega
  rw [nextMatch, h0]
  rfl

theorem execAllGo_congr (cs : List Char) :
    ∀ f1 f2 i, cs.length - i ≤ f1 → cs.length - i ≤ f2 →
      execAllGo cs f1 i = execAllGo cs f2 i := by
  intro f1
  induction f1 with
  | zero =>
    intro f2 i h1 h2
    match f2 with
    | 0 => rfl
    | f2 + 1 =>
      rw [execAllGo, execAllGo, nextMatch_of_le cs i (by omega)]
  | succ f1 ih =>
    intro f2 i h1 h2
    match f2 with
    | 0 =>
      rw [execAllGo, execAllGo, nextMatch_of_le cs i (by omega)]
    | f2 + 1 =>
      rw [execAllGo, execAllGo]
      split
      case h_1 => rfl
      case h_2 s e n hm =>
        obtain ⟨hs, hse, hel, -, -⟩ := nextMatch_bounds cs i s e n hm
        rw [ih f2 e (by omega) (by omega)]

theorem execAll_eq (cs : List Char) (i : Nat) :
    execAll cs i = match nextMatch cs i with
      | none => []
      | some (s, e, n) => (s, e, n) :: execAll cs e := by
  by_cases hi : cs.length ≤ i
  · rw [nextMatch_of_le cs i hi]
    have h0 : cs.length - i = 0 := by omega
    rw [execAll, h0]
    rfl
  · push_neg at hi
    have h1 : cs.length - i = (cs.length - i - 1) + 1 := by omega
    rw [execAll, h1, execAllGo]
    cases hm : nextMatch cs i with
    | none => rfl
    | some m =>
      obtain ⟨s, e, n⟩ := m
      obtain ⟨hs, hse, hel, -, -⟩ := nextMatch_bounds cs i s e n hm
      show (s, e, n) :: execAllGo cs (cs.length - i - 1) e = (s, e, n) :: execAll cs e
      rw [execAll, execAllGo_congr cs (cs.length - i - 1) (cs.length - e) e (by omega) (by omega)]

theorem mem_execAll_ge (cs : List Char) :
    ∀ fuel i m, m ∈ execAllGo cs fuel i → i ≤ m.1 := by
  intro fuel
  induction fuel with
  | zero => intro i m h; exact absurd h (by simp [execAllGo])
  | succ fuel ih =>
    intro i m h
    rw [execAllGo] at h
    split at h
    case h_1 => exact absurd h (by simp)
    case h_2 s e n hm =>
      obtain ⟨hs, hse, -, -, -⟩ := nextMatch_bounds cs i s e n hm
      rcases List.mem_cons.mp h with hh | ht
      · subst hh; exact hs
      · have := ih e m ht
        omega

theorem execAll_pairwise (cs : List Char) :
    ∀ fuel i, List.Pairwise (fun a b : Nat × Nat × String => a.1 < b.1)
      (execAllGo cs fuel i) := by
  intro fuel
  induction fuel with
  | zero => intro i; simp [execAllGo]
  | succ fuel ih =>
    intro i
    rw [execAllGo]
    split
    case h_1 => simp
    case h_2 s e n hm =>
      obtain ⟨hs, hse, -, -, -⟩ := nextMatch_bounds cs i s e n hm
      refine List.Pairwise.cons ?_ (ih e)
      intro m hmem
      have := mem_execAll_ge cs fuel e m hmem
      simp only
      omega

theorem mem_execAll_matchAt (cs : List Char) :
    ∀ fuel i m, m ∈ execAllGo cs fuel i → matchAt cs m.1 = some (m.2.1, m.2.2) := by
  intro fuel
  induction fuel with
  | zero => intro i m h; exact absurd h (by simp [execAllGo])
  | succ fuel ih =>
    intro i m h
    rw [execAllGo] at h
    split at h
    case h_1 => exact absurd h (by simp)
    case h_2 s e n hm =>
      obtain ⟨-, -, -, hma, -⟩ := nextMatch_bounds cs i s e n hm
      rcases List.mem_cons.mp h with hh | ht
      · subst hh; exact hma
      · exact ih e m ht

theorem mem_execAll_name_ne (cs : List Char) (m : Nat × Nat × String)
    (h : m ∈ execAll cs 0) : m.2.2 ≠ "" := by
  have hma := mem_execAll_matchAt cs _ 0 m h
  exact (matchAt_bounds cs m.1 m.2.1 m.2.2 hma).2.2.2

theorem foldl_keep_last_name :
    ∀ (l : List (Nat × Nat × String)) (acc : Option String),
      (∀ m ∈ l, m.2.2 ≠ "") →
      l.foldl (fun acc m => if m.2.2 = "" then acc else some m.2.2) acc =
        match l.getLast? with
        | none => acc
        | some m => some m.2.2 := by
  intro l
  induction l with
  | nil => intro acc h; rfl
  | cons a t ih =>
    intro acc h
    have ha : a.2.2 ≠ "" := h a (List.mem_cons_self a t)
    rw [List.foldl_cons]
    simp only [if_neg ha]
    rw [ih (some a.2.2) (fun m hm => h m (List.mem_cons_of_mem a hm))]
    match t with
    | [] => rfl
    | b :: t2 =>
      rw [List.getLast?_cons_cons]
      obtain ⟨x, hx⟩ := Option.isSome_iff_exists.mp
        (List.getLast?_isSome.mpr (List.cons_ne_nil b t2))
      rw [hx]

theorem getEnclosingClassName_eq (cs : List Char) :
    getEnclosingClassName cs = ((execAll cs 0).getLast?).map (fun m => m.2.2) := by
  rw [getEnclosingClassName,
    foldl_keep_last_name (execAll cs 0) none (fun m hm => mem_execAll_name_ne cs m hm)]
  match (execAll cs 0).getLast? with
  | none => rfl
  | some m => rfl

theorem foldl_keep_last_brace (cs : List Char) (c : String) :
    ∀ (l : List (Nat × Nat × String)) (acc : Int),
      l.foldl (fun acc m => if m.2.2 = c then bracePos cs m else acc) acc =
        match (l.filter (fun m => m.2.2 = c)).getLast? with
        | none => acc
        | some m => bracePos cs m := by
  intro l
  induction l with
  | nil => intro acc; rfl
  | cons a t ih =>
    intro acc
    rw [List.foldl_cons]
    by_cases ha : a.2.2 = c
    · simp only [if_pos ha]
      rw [ih (bracePos cs a)]
      rw [List.filter_cons_of_pos (by simp [ha])]
      cases hft : t.filter (fun m => m.2.2 = c) with
      | nil => simp
      | cons b t2 =>
        rw [List.getLast?_cons_cons]
        obtain ⟨x, hx⟩ := Option.isSome_iff_exists.mp
          (List.getLast?_isSome.mpr (List.cons_ne_nil b t2))
        rw [hx]
    · simp only [if_neg ha]
      rw [ih acc]
      rw [List.filter_cons_of_neg (by simp [ha])]

theorem propsStart_eq (cs : List Char) (c : String) :
    propsStart cs c =
      match ((execAll cs 0).filter (fun m => m.2.2 = c)).getLast? with
      | none => -1
      | some m => bracePos cs m := by
  rw [propsStart, foldl_keep_last_brace cs c (execAll cs 0) (-1)]

theorem lastIndexOf_nonneg (c : Char) :
    ∀ (l : List Char) (k : Nat), l.get? k = some c → 0 ≤ lastIndexOf l c := by
  intro l
  induction l with
  | nil => intro k h; exact absurd h (by simp)
  | cons a t ih =>
    intro k h
    rw [lastIndexOf]
    by_cases hr : 0 ≤ lastIndexOf t c
    · simp only [if_pos hr]; omega
    · simp only [if_neg hr]
      match k with
      | 0 =>
        simp only [List.get?_cons_zero, Option.some.injEq] at h
        rw [if_pos h]
      | k + 1 =>
        rw [List.get?_cons_succ] at h
        exact absurd (ih k h) hr

theorem lastIndexOf_get (c : Char) :
    ∀ (l : List Char), 0 ≤ lastIndexOf l c →
      l.get? (lastIndexOf l c).toNat = some c := by
  intro l
  induction l with
  | nil => intro h; exact absurd h (by rw [lastIndexOf]; omega)
  | cons a t ih =>
    intro h
    rw [lastIndexOf]
    by_cases hr : 0 ≤ lastIndexOf t c
    · simp only [if_pos hr]
      have ht : (lastIndexOf t c + 1).toNat = (lastIndexOf t c).toNat + 1 := by omega
      rw [ht, List.get?_cons_succ]
      exact ih hr
    · simp only [if_neg hr]
      by_cases ha : a = c
      · rw [if_pos ha]
        simpa using ha
      · rw [if_neg ha]
        rw [lastIndexOf] at h
        rw [if_neg hr, if_neg ha] at h
        exact absurd h (by omega)

theorem lastIndexOf_lt_length (c : Char) :
    ∀ (l : List Char), lastIndexOf l c < (l.length : Int) := by
  intro l
  induction l with
  | nil => rw [lastIndexOf]; simp
  | cons a t ih =>
    rw [lastIndexOf]
    by_cases hr : 0 ≤ lastIndexOf t c
    · simp only [if_pos hr, List.length_cons]
      push_cast
      omega
    · simp only [if_neg hr, List.length_cons]
      by_cases ha : a = c
      · rw [if_pos ha]; push_cast; omega
      · rw [if_neg ha]; push_cast; omega

theorem bracePos_spec (cs : List Char) (m : Nat × Nat × String)
    (hm : matchAt cs m.1 = some (m.2.1, m.2.2)) :
    ∃ p : Nat, bracePos cs m = (p : Int) ∧ cs.get? p = some lbrace ∧
      m.1 ≤ p ∧ p < m.2.1 := by
  obtain ⟨h1, h2, h3, -⟩ := matchAt_bounds cs m.1 m.2.1 m.2.2 hm
  have hsub : ((cs.drop m.1).take (m.2.1 - m.1)).get? (m.2.1 - 1 - m.1) = some lbrace := by
    rw [List.get?_take (by omega), List.get?_drop]
    have harith : m.1 + (m.2.1 - 1 - m.1) = m.2.1 - 1 := by omega
    rw [harith]
    exact h3
  have hnn : 0 ≤ lastIndexOf ((cs.drop m.1).take (m.2.1 - m.1)) lbrace :=
    lastIndexOf_nonneg lbrace _ _ hsub
  set r := lastIndexOf ((cs.drop m.1).take (m.2.1 - m.1)) lbrace with hrdef
  have hget : ((cs.drop m.1).take (m.2.1 - m.1)).get? r.toNat = some lbrace :=
    lastIndexOf_get lbrace _ hnn
  have hlt : r < (((cs.drop m.1).take (m.2.1 - m.1)).length : Int) :=
    lastIndexOf_lt_length lbrace _
  have hlen : ((cs.drop m.1).take (m.2.1 - m.1)).length ≤ m.2.1 - m.1 := by
    rw [List.length_take]
    omega
  refine ⟨m.1 + r.toNat, ?_, ?_, by omega, by omega⟩
  · rw [bracePos, ← hrdef]
    omega
  · rw [List.get?_take (by omega), List.get?_drop] at hget
    exact hget

theorem braceDepth_self (cs : List Char) (p : Nat) : braceDepth cs p p = 0 := by
  simp [braceDepth]

theorem braceDepth_succ (cs : List Char) (p j : Nat) (ch : Char)
    (hpj : p ≤ j) (hg : cs.get? j = some ch) :
    braceDepth cs p (j + 1) = braceDepth cs p j + braceDelta ch := by
  have h1 : j + 1 - p = (j - p) + 1 := by omega
  have h2 : (cs.drop p)[j - p]? = some ch := by
    rw [← List.get?_eq_getElem?, List.get?_drop]
    have h3 : p + (j - p) = j := by omega
    rw [h3]
    exact hg
  rw [braceDepth, h1, List.take_succ, h2, List.map_append, List.sum_append]
  simp [braceDepth]

theorem braceDepth_front (cs : List Char) (i j : Nat) (ch : Char)
    (hg : cs.get? i = some ch) (hij : i < j) :
    braceDepth cs i j = braceDelta ch + braceDepth cs (i + 1) j := by
  obtain ⟨hi, hgv⟩ := List.get?_eq_some.mp hg
  have hgi : cs[i] = ch := by
    rw [← List.get_eq_getElem cs ⟨i, hi⟩]
    exact hgv
  have hdrop : cs.drop i = ch :: cs.drop (i + 1) := by
    rw [List.drop_eq_getElem_cons hi, hgi]
  rw [braceDepth, hdrop]
  have h1 : j - i = (j - (i + 1)) + 1 := by omega
  rw [h1, List.take_succ_cons, List.map_cons, List.sum_cons]
  simp [braceDepth]

theorem braceDelta_ge (ch : Char) : -1 ≤ braceDelta ch := by
  rw [braceDelta]
  split
  · omega
  · split <;> omega

theorem braceDelta_le (ch : Char) : braceDelta ch ≤ 1 := by
  rw [braceDelta]
  split
  · omega
  · split <;> omega

theorem braceDelta_eq_neg_one (ch : Char) (h : braceDelta ch = -1) : ch = rbrace := by
  rw [braceDelta] at h
  split at h
  · omega
  · split at h
    · assumption
    · omega

theorem braceWalkGo_iff (cs : List Char) (start : Nat) :
    ∀ fuel i depth, cs.length ≤ fuel + i →
      (braceWalkGo cs start fuel i depth = true ↔
        ∃ j, i ≤ j ∧ j < cs.length ∧ cs.get? j = some rbrace ∧ start < j ∧
          depth + braceDepth cs i (j + 1) = 0) := by
  intro fuel
  induction fuel with
  | zero =>
    intro i depth h
    simp only [braceWalkGo, Bool.false_eq_true, false_iff]
    rintro ⟨j, hj1, hj2, -⟩
    omega
  | succ fuel ih =>
    intro i depth h
    rw [braceWalkGo]
    split
    case h_1 hg =>
      have hi : cs.length ≤ i := List.get?_eq_none.mp hg
      simp only [Bool.false_eq_true, false_iff]
      rintro ⟨j, hj1, hj2, -⟩
      omega
    case h_2 ch hg =>
      have hi : i < cs.length := (List.get?_eq_some.mp hg).1
      by_cases hl : ch = lbrace
      · rw [if_pos hl]
        rw [ih (i + 1) (depth + 1) (by omega)]
        constructor
        · rintro ⟨j, hj1, hj2, hj3, hj4, hj5⟩
          refine ⟨j, by omega, hj2, hj3, hj4, ?_⟩
          rw [braceDepth_front cs i (j + 1) ch hg (by omega), hl]
          rw [braceDelta, if_pos rfl]
          omega
        · rintro ⟨j, hj1, hj2, hj3, hj4, hj5⟩
          have hne : j ≠ i := by
            intro hji
            subst hji
            rw [hg] at hj3
            have : ch = rbrace := by simpa using hj3
            rw [hl] at this
            exact absurd this (by decide)
          refine ⟨j, by omega, hj2, hj3, hj4, ?_⟩
          rw [braceDepth_front cs i (j + 1) ch hg (by omega), hl] at hj5
          rw [braceDelta, if_pos rfl] at hj5
          omega
      · by_cases hr : ch = rbrace
        · rw [if_neg hl, if_pos hr]
          by_cases hbreak : depth - 1 = 0 ∧ start < i
          · rw [if_pos hbreak]
            simp only [true_iff]
            refine ⟨i, le_refl i, hi, by rw [hg, hr], hbreak.2, ?_⟩
            rw [braceDepth_succ cs i i ch (le_refl i) hg, braceDepth_self]
            rw [braceDelta, if_neg hl, if_pos hr]
            omega
          · rw [if_neg hbreak]
            rw [ih (i + 1) (depth - 1) (by omega)]
            constructor
            · rintro ⟨j, hj1, hj2, hj3, hj4, hj5⟩
              refine ⟨j, by omega, hj2, hj3, hj4, ?_⟩
              rw [braceDepth_front cs i (j + 1) ch hg (by omega)]
              rw [braceDelta, if_neg hl, if_pos hr]
              omega
            · rintro ⟨j, hj1, hj2, hj3, hj4, hj5⟩
              rcases Nat.eq_or_lt_of_le hj1 with hji | hji
              · exfalso
                apply hbreak
                have hdd : braceDepth cs i (j + 1) = braceDelta ch := by
                  rw [← hji, braceDepth_succ cs i i ch (le_refl i) hg, braceDepth_self]
                  omega
                rw [hdd, braceDelta, if_neg hl, if_pos hr] at hj5
                exact ⟨by omega, by omega⟩
              · refine ⟨j, by omega, hj2, hj3, hj4, ?_⟩
                rw [braceDepth_front cs i (j + 1) ch hg (by omega)] at hj5
                rw [braceDelta, if_neg hl, if_pos hr] at hj5
                omega
        · rw [if_neg hl, if_neg hr]
          rw [ih (i + 1) depth (by omega)]
          constructor
          · rintro ⟨j, hj1, hj2, hj3, hj4, hj5⟩
            refine ⟨j, by omega, hj2, hj3, hj4, ?_⟩
            rw [braceDepth_front cs i (j + 1) ch hg (by omega)]
            rw [braceDelta, if_neg hl, if_neg hr]
            omega
          · rintro ⟨j, hj1, hj2, hj3, hj4, hj5⟩
            have hne : j ≠ i := by
              intro hji
              subst hji
              rw [hg] at hj3
              exact hr (by simpa using hj3)
            refine ⟨j, by omega, hj2, hj3, hj4, ?_⟩
            rw [braceDepth_front cs i (j + 1) ch hg (by omega)] at hj5
            rw [braceDelta, if_neg hl, if_neg hr] at hj5
            omega

theorem braceWalk_iff (cs : List Char) (start i : Nat) (depth : Int) :
    braceWalk cs start i depth = true ↔
      ∃ j, i ≤ j ∧ j < cs.length ∧ cs.get? j = some rbrace ∧ start < j ∧
        depth + braceDepth cs i (j + 1) = 0 :=
  braceWalkGo_iff cs start (cs.length - i) i depth (by omega)

theorem exists_rbrace_zero (cs : List Char) (p : Nat) (hp : cs.get? p = some lbrace)
    (h : ∃ j, p < j ∧ j < cs.length ∧ braceDepth cs p (j + 1) = 0) :
    ∃ j, p < j ∧ j < cs.length ∧ cs.get? j = some rbrace ∧
      braceDepth cs p (j + 1) = 0 := by
  obtain ⟨j0, hPj0, hminj0⟩ :
      ∃ j0, (p < j0 ∧ j0 < cs.length ∧ braceDepth cs p (j0 + 1) = 0) ∧
        ∀ m, m < j0 → ¬(p < m ∧ m < cs.length ∧ braceDepth cs p (m + 1) = 0) :=
    ⟨Nat.find h, Nat.find_spec h, fun m hm => Nat.find_min h hm⟩
  obtain ⟨hj0a, hj0b, hj0c⟩ := hPj0
  have key : ∀ m, p + 1 ≤ m → m ≤ j0 → 1 ≤ braceDepth cs p m := by
    intro m hm1
    induction m, hm1 using Nat.le_induction with
    | base =>
      intro hle
      rw [braceDepth_succ cs p p lbrace (le_refl p) hp, braceDepth_self]
      rw [braceDelta, if_pos rfl]
      omega
    | succ n hn ih =>
      intro hle
      have h1 : 1 ≤ braceDepth cs p n := ih (by omega)
      have hnlt : n < cs.length := by omega
      obtain ⟨ch, hch⟩ : ∃ ch, cs.get? n = some ch := by
        cases hg : cs.get? n with
        | none => exact absurd (List.get?_eq_none.mp hg) (by omega)
        | some ch => exact ⟨ch, rfl⟩
      have hstep : braceDepth cs p (n + 1) = braceDepth cs p n + braceDelta ch :=
        braceDepth_succ cs p n ch (by omega) hch
      have hge := braceDelta_ge ch
      by_contra hlt
      have hz : braceDepth cs p (n + 1) = 0 := by omega
      exact hminj0 n (by omega) ⟨by omega, by omega, hz⟩
  have hD : 1 ≤ braceDepth cs p j0 := key _ (by omega) (le_refl _)
  obtain ⟨ch, hch⟩ : ∃ ch, cs.get? j0 = some ch := by
    cases hg : cs.get? j0 with
    | none => exact absurd (List.get?_eq_none.mp hg) (by omega)
    | some ch => exact ⟨ch, rfl⟩
  have hstep : braceDepth cs p (j0 + 1) = braceDepth cs p j0 + braceDelta ch :=
    braceDepth_succ cs p j0 ch (by omega) hch
  have hle := braceDelta_le ch
  have hge := braceDelta_ge ch
  have hne : braceDelta ch = -1 := by omega
  have hrb : ch = rbrace := braceDelta_eq_neg_one ch hne
  exact ⟨j0, hj0a, hj0b, by rw [hch, hrb], hj0c⟩

theorem propsStart_found (cs : List Char) (c : String) (p : Nat)
    (hps : propsStart cs c = (p : Int)) :
    ∃ m, ((execAll cs 0).filter (fun m => m.2.2 = c)).getLast? = some m ∧
      bracePos cs m = (p : Int) ∧ cs.get? p = some lbrace ∧
      m.1 ≤ p ∧ p < m.2.1 := by
  rw [propsStart_eq] at hps
  cases hgl : ((execAll cs 0).filter (fun m => m.2.2 = c)).getLast? with
  | none =>
    rw [hgl] at hps
    have hps2 : (-1 : Int) = (p : Int) := hps
    exact absurd hps2 (by omega)
  | some m =>
    rw [hgl] at hps
    have hps2 : bracePos cs m = (p : Int) := hps
    have hmem := List.mem_of_getLast?_eq_some hgl
    have hmem2 := (List.mem_filter.mp hmem).1
    have hma := mem_execAll_matchAt cs _ 0 m hmem2
    obtain ⟨q, hb1, hb2, hb3, hb4⟩ := bracePos_spec cs m hma
    have hq : q = p := by omega
    subst hq
    exact ⟨m, rfl, hps2, hb2, hb3, hb4⟩

theorem propsStart_of_resolved (cs : List Char) (c : String)
    (h : getEnclosingClassName cs = some c) :
    ∃ p : Nat, propsStart cs c = (p : Int) := by
  rw [getEnclosingClassName_eq] at h
  obtain ⟨m, hm1, hm2⟩ := Option.map_eq_some'.mp h
  have hmem := List.mem_of_getLast?_eq_some hm1
  have hfmem : m ∈ (execAll cs 0).filter (fun m => m.2.2 = c) :=
    List.mem_filter.mpr ⟨hmem, by simp [hm2]⟩
  have hne : (execAll cs 0).filter (fun m => m.2.2 = c) ≠ [] :=
    List.ne_nil_of_mem hfmem
  obtain ⟨m2, hm2'⟩ := Option.isSome_iff_exists.mp (List.getLast?_isSome.mpr hne)
  have hmem2 := (List.mem_filter.mp (List.mem_of_getLast?_eq_some hm2')).1
  have hma := mem_execAll_matchAt cs _ 0 m2 hmem2
  obtain ⟨q, hb1, -, -, -⟩ := bracePos_spec cs m2 hma
  refine ⟨q, ?_⟩
  rw [propsStart_eq, hm2']
  exact hb1

theorem isInsidePropsObject_iff (cs : List Char) (c : String) (p : Nat)
    (hps : propsStart cs c = (p : Int)) (hp : cs.get? p = some lbrace) :
    isInsidePropsObject cs c = true ↔
      ∀ j, p < j → j < cs.length → braceDepth cs p (j + 1) ≠ 0 := by
  simp only [isInsidePropsObject]
  rw [hps]
  rw [if_neg (by omega)]
  have htn : ((p : Int)).toNat = p := rfl
  rw [htn]
  rw [Bool.not_eq_true']
  rw [← Bool.not_eq_true (braceWalk cs p p 0)]
  rw [braceWalk_iff]
  constructor
  · intro hno j hj1 hj2 heq
    apply hno
    obtain ⟨j2, h1, h2, h3, h4⟩ := exists_rbrace_zero cs p hp ⟨j, hj1, hj2, heq⟩
    exact ⟨j2, by omega, h2, h3, h1, by omega⟩
  · rintro hall ⟨j, hj1, hj2, hj3, hj4, hj5⟩
    exact hall j hj4 hj2 (by omega)

theorem provideCore_none_noClass (w : List Char)
    (um : Option (List (String × List String)))
    (h : getEnclosingClassName w = none) : provideCore w um = none := by
  rw [provideCore, h]

theorem provideCore_none_noProps (w : List Char)
    (um : Option (List (String × List String))) (c : String)
    (hc : getEnclosingClassName w = some c)
    (hp : getPropsForClass um c = none) : provideCore w um = none := by
  rw [provideCore, hc]
  show (match getPropsForClass um c with
    | none => none
    | some props =>
      if props.length = 0 then none
      else if isInsidePropsObject w c then some (buildItemsForProps c props)
      else none) = none
  rw [hp]

theorem provideCore_none_emptyProps (w : List Char)
    (um : Option (List (String × List String))) (c : String)
    (hc : getEnclosingClassName w = some c)
    (hp : getPropsForClass um c = some []) : provideCore w um = none := by
  rw [provideCore, hc]
  show (match getPropsForClass um c with
    | none => none
    | some props =>
      if props.length = 0 then none
      else if isInsidePropsObject w c then some (buildItemsForProps c props)
      else none) = none
  rw [hp]
  rfl

theorem provideCore_none_notInside (w : List Char)
    (um : Option (List (String × List String))) (c : String)
    (hc : getEnclosingClassName w = some c)
    (hin : isInsidePropsObject w c = false) : provideCore w um = none := by
  rw [provideCore, hc]
  show (match getPropsForClass um c with
    | none => none
    | some props =>
      if props.length = 0 then none
      else if isInsidePropsObject w c then some (buildItemsForProps c props)
      else none) = none
  cases hp : getPropsForClass um c with
  | none => rfl
  | some props =>
    show (if props.length = 0 then none
      else if isInsidePropsObject w c then some (buildItemsForProps c props)
      else none) = none
    split
    · rfl
    · rw [if_neg (by rw [hin]; simp)]

theorem nextMatchGo_none_noCallee (cs : List Char)
    (hno : ∀ k, cs.get? k ≠ some 'R' ∧ cs.get? k ≠ some 'e') :
    ∀ fuel i, nextMatchGo cs fuel i = none := by
  intro fuel
  induction fuel with
  | zero => intro i; rfl
  | succ fuel ih =>
    intro i
    rw [nextMatchGo]
    cases hm : matchAt cs i with
    | none => exact ih (i + 1)
    | some r =>
      rcases matchAt_first cs i r.1 r.2 (by rw [hm]) with hr | hr
      · exact absurd hr (hno i).1
      · exact absurd hr (hno i).2

theorem getEnclosingClassName_none_noCallee (cs : List Char)
    (hno : ∀ k, cs.get? k ≠ some 'R' ∧ cs.get? k ≠ some 'e') :
    getEnclosingClassName cs = none := by
  have hexec : execAll cs 0 = [] := by
    rw [execAll_eq, nextMatch, nextMatchGo_none_noCallee cs hno]
  rw [getEnclosingClassName, hexec]
  rfl

theorem provideCore_replicate_space
    (um : Option (List (String × List String))) :
    provideCore (List.replicate maxLookback ' ') um = none := by
  apply provideCore_none_noClass
  apply getEnclosingClassName_none_noCallee
  intro k
  constructor <;> intro hg <;>
    exact absurd (List.eq_of_mem_replicate (List.get?_mem hg)) (by decide)

theorem windowText_truncated :
    windowText docTruncated docTruncated.data.length = List.replicate maxLookback ' ' := by
  have hdata : docTruncated.data = winFrameOpen.data ++ List.replicate maxLookback ' ' := rfl
  have hlen12 : winFrameOpen.data.length = 12 := by decide
  have hml : maxLookback = 2000 := rfl
  have hlen : docTruncated.data.length = 12 + maxLookback := by
    rw [hdata, List.length_append, hlen12, List.length_replicate]
  simp only [windowText]
  rw [List.take_length]
  rw [if_pos (by omega)]
  have harith : docTruncated.data.length - maxLookback = 12 := by omega
  rw [harith, hdata, List.drop_left' hlen12]

theorem getPropsForClassJs_agrees (um : Option (List (String × List String)))
    (c : String) (h : objectPrototypeGet c = none) :
    getPropsForClassJs um c = (getPropsForClass um c).map JsValue.arr := by
  cases um with
  | none =>
    simp only [getPropsForClassJs, getPropsForClass, Option.getD_none, jsIndex, h]
    cases hd : List.lookup c defaultPropsMap <;> rfl
  | some m =>
    simp only [getPropsForClassJs, getPropsForClass, Option.getD_some, jsIndex, h]
    cases hu : List.lookup c m with
    | none => cases hd : List.lookup c defaultPropsMap <;> rfl
    | some l => rfl

theorem provideCoreJs_refines (w : List Char)
    (um : Option (List (String × List String)))
    (h : ∀ c, getEnclosingClassName w = some c → objectPrototypeGet c = none) :
    provideCoreJs w um = Except.ok (provideCore w um) := by
  rw [provideCoreJs, provideCore]
  cases hc : getEnclosingClassName w with
  | none => rfl
  | some c =>
    show (match getPropsForClassJs um c with
      | none => Except.ok none
      | some props =>
        if jsLengthIsZero props then Except.ok none
        else if isInsidePropsObject w c then
          match props with
          | JsValue.arr elems => Except.ok (some (buildItemsForProps c elems))
          | _ => Except.error JsError.typeError
        else Except.ok none) =
      Except.ok (match getPropsForClass um c with
        | none => none
        | some props =>
          if props.length = 0 then none
          else if isInsidePropsObject w c then some (buildItemsForProps c props)
          else none)
    rw [getPropsForClassJs_agrees um c (h c hc)]
    cases hp : getPropsForClass um c with
    | none => rfl
    | some props =>
      show (if jsLengthIsZero (JsValue.arr props) then Except.ok none
        else if isInsidePropsObject w c then
          Except.ok (some (buildItemsForProps c props))
        else Except.ok none) =
        Except.ok (if props.length = 0 then none
          else if isInsidePropsObject w c then some (buildItemsForProps c props)
          else none)
      by_cases hz : props.length = 0
      · simp [jsLengthIsZero, hz]
      · simp only [jsLengthIsZero, if_neg hz]
        rw [if_neg (by simpa using hz)]
        cases hin : isInsidePropsObject w c <;> simp [hin]

/-- C1 (amended): the layered precedence of `getPropsForClass` as the
source implements it through JavaScript property reads — a user-map own
entry for the class name (even an empty one) is returned as-is; with no
own entry, a class name that is an `Object.prototype` member yields the
inherited value (truthy, not a property list), bypassing the built-in
defaults; only for names absent from the prototype is the built-in
defaults' own entry consulted; with no user configuration the built-in
map itself serves as the user map. -/
theorem getPropsForClassJs_layering :
    ∀ (um : List (String × List String)) (c : String),
      (∀ l, List.lookup c um = some l →
        getPropsForClassJs (some um) c = some (JsValue.arr l))
      ∧ (∀ v, List.lookup c um = none → objectPrototypeGet c = some v →
          getPropsForClassJs (some um) c = some v)
      ∧ (List.lookup c um = none → objectPrototypeGet c = none →
          getPropsForClassJs (some um) c =
            (List.lookup c defaultPropsMap).map JsValue.arr)
      ∧ getPropsForClassJs none c = jsIndex defaultPropsMap c := by
  intro um c
  refine ⟨?_, ?_, ?_, ?_⟩
  · intro l hl
    simp only [getPropsForClassJs, Option.getD_some, jsIndex, hl]
  · intro v hl hpr
    simp only [getPropsForClassJs, Option.getD_some, jsIndex, hl, hpr]
  · intro hl hpr
    simp only [getPropsForClassJs, Option.getD_some, jsIndex, hl, hpr]
    cases hd : List.lookup c defaultPropsMap <;> simp [hpr]
  · simp only [getPropsForClassJs, Option.getD_none]
    cases hd : jsIndex defaultPropsMap c <;> rfl

/-- Witness for `getPropsForClassJs_layering` at concrete inputs: an
empty user own entry, a prototype hit, and a default fallback. -/
theorem getPropsForClassJs_layering_witness :
    getPropsForClassJs (some userMapEmptyFrame) clsFrame = some (JsValue.arr [])
    ∧ getPropsForClassJs (some userMapEmptyFrame) clsConstructor =
        some (JsValue.fn 1)
    ∧ getPropsForClassJs (some userMapEmptyFrame) clsB =
        (List.lookup clsB defaultPropsMap).map JsValue.arr :=
  ⟨(getPropsForClassJs_layering userMapEmptyFrame clsFrame).1 [] (by decide),
   (getPropsForClassJs_layering userMapEmptyFrame clsConstructor).2.1
     (JsValue.fn 1) (by decide) (by decide),
   (getPropsForClassJs_layering userMapEmptyFrame clsB).2.2.1
     (by decide) (by decide)⟩

/-- C1 counterexample: with a user map carrying an empty entry for class
`Frame` (a class that has a built-in default), the resolver returns the
empty user entry, not the built-in default sequence the claim promises;
and for class name `constructor`, absent from both maps, it returns the
inherited `Object.prototype.constructor` instead of no properties. -/
theorem getPropsForClassJs_emptyEntry_counterexample :
    getPropsForClassJs (some userMapEmptyFrame) clsFrame = some (JsValue.arr [])
    ∧ (List.lookup clsFrame defaultPropsMap).isSome = true
    ∧ getPropsForClassJs (some userMapEmptyFrame) clsFrame ≠
        (List.lookup clsFrame defaultPropsMap).map JsValue.arr
    ∧ List.lookup clsConstructor userMapEmptyFrame = none
    ∧ List.lookup clsConstructor defaultPropsMap = none
    ∧ getPropsForClassJs (some userMapEmptyFrame) clsConstructor =
        some (JsValue.fn 1) := by
  refine ⟨by decide, by decide, by decide, by decide, by decide, by decide⟩

/-- C2: the call-site resolver scans the whole window and returns the
captured class name of the textually last match — it equals the last
element of the `exec` stream, whose match start indices are strictly
increasing in scan order; on a window with two sequential calls it
resolves the second class, and on a window with no match it returns no
class. -/
theorem getEnclosingClassName_last_match :
    (∀ cs : List Char,
      getEnclosingClassName cs = ((execAll cs 0).getLast?).map (fun m => m.2.2))
    ∧ (∀ cs : List Char,
        List.Pairwise (fun a b : Nat × Nat × String => a.1 < b.1) (execAll cs 0))
    ∧ getEnclosingClassName winTwoCalls.data = some clsB
    ∧ getEnclosingClassName winNoMatch.data = none := by
  refine ⟨getEnclosingClassName_eq, ?_, by decide, by decide⟩
  intro cs
  exact execAll_pairwise cs _ 0

/-- C3: when the containment checker resolves a props start for the
class, that start is the brace position of the last call-pattern match
for that class and holds an opening brace; the checker reports the
cursor inside iff the depth never returns to zero strictly after the
start before the window ends; a not-inside verdict makes the pipeline
return no candidates. -/
theorem isInsidePropsObject_depth_spec :
    ∀ (cs : List Char) (c : String) (p : Nat),
      getEnclosingClassName cs = some c → propsStart cs c = (p : Int) →
      (∃ m, ((execAll cs 0).filter (fun m => m.2.2 = c)).getLast? = some m ∧
          bracePos cs m = (p : Int) ∧ m.1 ≤ p ∧ p < m.2.1)
      ∧ cs.get? p = some lbrace
      ∧ (isInsidePropsObject cs c = true ↔
          ∀ j, p < j → j < cs.length → braceDepth cs p (j + 1) ≠ 0)
      ∧ (isInsidePropsObject cs c = false →
          ∀ um, provideCore cs um = none) := by
  intro cs c p hc hps
  obtain ⟨m, hm1, hm2, hm3, hm4, hm5⟩ := propsStart_found cs c p hps
  refine ⟨⟨m, hm1, hm2, hm4, hm5⟩, hm3,
    isInsidePropsObject_iff cs c p hps hm3, ?_⟩
  intro hin um
  exact provideCore_none_notInside cs um c hc hin

/-- Witness for `isInsidePropsObject_depth_spec` at a concrete window. -/
theorem isInsidePropsObject_depth_spec_witness :
    getEnclosingClassName winFrameOpen.data = some clsFrame
    ∧ propsStart winFrameOpen.data clsFrame = ((11 : Nat) : Int)
    ∧ winFrameOpen.data.get? 11 = some lbrace :=
  ⟨by decide, by decide,
    (isInsidePropsObject_depth_spec winFrameOpen.data clsFrame 11
      (by decide) (by decide)).2.1⟩

/-- C4: the window extractor keeps the whole prefix up to the cursor when
it has at most `maxLookback` characters and exactly the trailing
`maxLookback` characters otherwise; a document whose only call pattern
lies wholly before the truncation point yields no candidates. -/
theorem windowText_truncation :
    (∀ (doc : String) (pos : Nat),
      ((doc.data.take pos).length ≤ maxLookback →
        windowText doc pos = doc.data.take pos)
      ∧ (maxLookback < (doc.data.take pos).length →
          windowText doc pos =
            (doc.data.take pos).drop ((doc.data.take pos).length - maxLookback)
          ∧ (windowText doc pos).length = maxLookback))
    ∧ provideCompletionItems docTruncated docTruncated.data.length none = none := by
  constructor
  · intro doc pos
    constructor
    · intro h
      simp only [windowText]
      rw [if_neg (by omega)]
    · intro h
      refine ⟨?_, ?_⟩
      · simp only [windowText]
        rw [if_pos h]
      · simp only [windowText]
        rw [if_pos h, List.length_drop]
        omega
  · rw [provideCompletionItems, windowText_truncated]
    exact provideCore_replicate_space none

/-- Witness for `windowText_truncation`, both below and above the
truncation threshold. -/
theorem windowText_truncation_witness :
    windowText winFrameOpen 12 = winFrameOpen.data.take 12
    ∧ windowText docTruncated 2012 =
        (docTruncated.data.take 2012).drop
          ((docTruncated.data.take 2012).length - maxLookback) := by
  constructor
  · exact (windowText_truncation.1 winFrameOpen 12).1 (by decide)
  · refine ((windowText_truncation.1 docTruncated 2012).2 ?_).1
    have hdata : docTruncated.data = winFrameOpen.data ++ List.replicate maxLookback ' ' := rfl
    have hlen12 : winFrameOpen.data.length = 12 := by decide
    have hml : maxLookback = 2000 := rfl
    have hlen : docTruncated.data.length = 12 + maxLookback := by
      rw [hdata, List.length_append, hlen12, List.length_replicate]
    rw [List.take_of_length_le (by omega)]
    omega

/-- C5: the completion builder yields exactly one candidate per property
name, in order, with the bare name as label, the snippet `name = $0`
(cursor marker immediately after the assignment operator) as insertion
text, and a detail line carrying the owning class name; on a window with
one open `Frame` call the pipeline returns the built-in `Frame` list
built in order. -/
theorem buildItemsForProps_spec :
    (∀ (className : String) (props : List String), props ≠ [] →
      (buildItemsForProps className props).length = props.length
      ∧ ∀ i : Nat, (buildItemsForProps className props).get? i =
          (props.get? i).map (fun name =>
            { label := name
              insertText := name ++ " = $0"
              detail := className ++ " property (React Luau helper)"
              kind := CompletionItemKind.property }))
    ∧ provideCore winFrameOpen.data none =
        (List.lookup clsFrame defaultPropsMap).map (buildItemsForProps clsFrame) := by
  constructor
  · intro className props hne
    constructor
    · rw [buildItemsForProps, List.length_map]
    · intro i
      rw [buildItemsForProps, List.get?_map]
  · decide

/-- Witness for `buildItemsForProps_spec` on a one-element list. -/
theorem buildItemsForProps_spec_witness :
    (buildItemsForProps clsFrame [clsB]).length = ([clsB] : List String).length :=
  (buildItemsForProps_spec.1 clsFrame [clsB] (by decide)).1

/-- C6 (code bug): the failure taxonomy is not single-outcome.  For the
window calling class `constructor` — an own key of neither map — the
inherited `Object.prototype.constructor` (a function of arity 1) passes
the truthiness and length guards and `props.map` throws a TypeError, an
error signal distinct from the no-candidates outcome.  A window with no
call pattern does collapse to no candidates. -/
theorem failure_modes_not_single_outcome :
    provideCoreJs winConstructor.data none = Except.error JsError.typeError
    ∧ List.lookup clsConstructor defaultPropsMap = none
    ∧ getEnclosingClassName winConstructor.data = some clsConstructor
    ∧ provideCoreJs winHello.data none = Except.ok none :=
  ⟨rfl, by decide, by decide, rfl⟩

/-- C7 (code bug): the query pipeline is not total.  On the document
`e("constructor", \x7b` with the cursor after the opening brace and no
user configuration, the property read returns the inherited
`Object.prototype.constructor`, the guards pass, and `props.map` in
`buildItemsForProps` throws a TypeError instead of returning a candidate
list or the no-suggestions result. -/
theorem provideCompletionItems_not_total :
    provideCompletionItemsJs winConstructor winConstructor.data.length none =
      Except.error JsError.typeError := rfl

/-- C8: whenever the resolver returns a class, the containment checker's
re-scan of the same window finds at least one match with that captured
class name, so its defensive `propsStartIndex === -1` branch is
unreachable within the pipeline. -/
theorem containment_rescan_finds_match :
    ∀ (cs : List Char) (c : String), getEnclosingClassName cs = some c →
      (∃ m ∈ execAll cs 0, m.2.2 = c)
      ∧ (∃ p : Nat, propsStart cs c = (p : Int))
      ∧ propsStart cs c ≠ -1 := by
  intro cs c h
  obtain ⟨p, hp⟩ := propsStart_of_resolved cs c h
  refine ⟨?_, ⟨p, hp⟩, by rw [hp]; omega⟩
  rw [getEnclosingClassName_eq] at h
  obtain ⟨m, hm1, hm2⟩ := Option.map_eq_some'.mp h
  exact ⟨m, List.mem_of_getLast?_eq_some hm1, hm2⟩

/-- Witness for `containment_rescan_finds_match` at a concrete window. -/
theorem containment_rescan_finds_match_witness :
    propsStart winFrameOpen.data clsFrame ≠ -1 :=
  (containment_rescan_finds_match winFrameOpen.data clsFrame (by decide)).2.2

/-- C9: the callee alternation carries no word boundary before the
one-letter spelling `e`, so a call token merely ending in `e` (here
`spawnTree`) is accepted: the resolver resolves class `Frame` and the
pipeline offers suggestions. -/
theorem unanchored_callee_spelling :
    getEnclosingClassName winSpawnTree.data = some clsFrame
    ∧ (provideCompletionItems winSpawnTree 20 none).isSome = true :=
  ⟨by decide, by decide⟩

/-- C10: the pipeline is deterministic and keeps no hidden state across
invocations — the result of a query appended to any two different query
histories is identical, and equals the pointwise function value. -/
theorem pipeline_deterministic :
    ∀ (qs1 qs2 : List (String × Nat × Option (List (String × List String))))
      (q : String × Nat × Option (List (String × List String))),
      (queryResults (qs1 ++ [q])).getLast? = (queryResults (qs2 ++ [q])).getLast?
      ∧ (queryResults (qs1 ++ [q])).getLast? =
          some (provideCompletionItems q.1 q.2.1 q.2.2) := by
  intro qs1 qs2 q
  have h1 : ∀ qs : List (String × Nat × Option (List (String × List String))),
      (queryResults (qs ++ [q])).getLast? =
        some (provideCompletionItems q.1 q.2.1 q.2.2) := by
    intro qs
    rw [queryResults, List.map_append]
    exact List.getLast?_concat _
  rw [h1 qs1, h1 qs2]
  exact ⟨rfl, rfl⟩

end ReactLuau
